import Mathlib

/- Verification of the candidate pipeline and posting-state machine of the
   Telegram deals bot (bot.py): text normalization and truncation, keyword
   filters, posting windows, the daily quota tracker, the dedup ledger,
   ranking of candidates, the publish loop, and the scheduler loop's
   error-handling structure.  External effects (HTTP send, RSS fetch, file
   persistence, clock) are modelled as explicit parameters or oracles; all
   state manipulation is translated directly from the Python source. -/

namespace OfferteBot

/-- Python list slice `l[-n:]`: the last `n` elements of `l` (all of `l` when
`l` has fewer than `n` elements). Used at bot.py:177 (`[-500:]`) and
bot.py:230 (`[-1500:]`). -/
def takeLast (n : Nat) (l : List α) : List α := l.drop (l.length - n)

/-- Persisted bot state (state.json, bot.py:55-67):
day marker, posts-made-today counter, and the recent-fingerprints history. -/
structure BotState where
  day : String
  posts_today : Nat
  recent_hashes : List String
  deriving DecidableEq

/-- bot.py:171-178 `reset_daily`: if the stored day differs from the current
day string, set the new day, reset `posts_today` to 0 and keep only the last
500 hashes; otherwise do nothing. (`save_state` is I/O and modelled separately
in `reset_daily_io`.) -/
def reset_daily (d : String) (st : BotState) : BotState :=
  if st.day ≠ d then
    { day := d, posts_today := 0, recent_hashes := takeLast 500 st.recent_hashes }
  else st

/-- bot.py:229-230: append a fingerprint to `recent_hashes`, then trim the
history to its last 1500 entries. -/
def record (st : BotState) (fp : String) : BotState :=
  { st with recent_hashes := takeLast 1500 (st.recent_hashes ++ [fp]) }

/-- bot.py:228-230: the state update performed when a send returned status
200: increment `posts_today` and record the candidate's fingerprint. -/
def recordSuccess (st : BotState) (fp : String) : BotState :=
  { day := st.day, posts_today := st.posts_today + 1,
    recent_hashes := takeLast 1500 (st.recent_hashes ++ [fp]) }

/-- A candidate built during one cycle (bot.py:217): source rank, source
name, normalized title, link, and fingerprint `h`. -/
structure Candidate where
  rank : Nat
  source_name : String
  title : String
  link : String
  h : String
  deriving DecidableEq

/-- bot.py:222-238, the publish loop over the ranked candidate list.
`send c` is the status code returned by `telegram_send_message` for the
message built from `c` (the external HTTP call, modelled as an oracle).
Returns the final state together with the list of send attempts made,
each recorded as (candidate, status code):
for each candidate, first the daily limit is checked (break when reached),
then the send is attempted; on status 200 the state is updated and the loop
stops (one post per cycle); on any other status the state is untouched and
the loop continues with the next candidate after a pause. -/
def publishLoop (send : Candidate → Nat) (maxP : Nat) :
    BotState → List Candidate → BotState × List (Candidate × Nat)
  | st, [] => (st, [])
  | st, c :: cs =>
    if maxP ≤ st.posts_today then (st, [])
    else if send c = 200 then (recordSuccess st c.h, [(c, send c)])
    else ((publishLoop send maxP st cs).1, (c, send c) :: (publishLoop send maxP st cs).2)

/-- A posting window from config (`windows` entries, bot.py:80-84), already
split into hour/minute fields as done by `map(int, w["start"].split(":"))`. -/
structure Window where
  startH : Nat
  startM : Nat
  endH : Nat
  endM : Nat
  deriving DecidableEq

/-- Encoding of a `datetime.time(h, m, s, micro)` value as microseconds of the
day; for in-range fields the lexicographic order on (h, m, s, micro) used by
Python's `dt_time` comparison coincides with `≤` on this encoding. -/
def timeVal (h m s micro : Nat) : Nat := ((h * 60 + m) * 60 + s) * 1000000 + micro

/-- The `start` bound of a window as a time-of-day value (seconds fields 0). -/
def windowStartVal (w : Window) : Nat := timeVal w.startH w.startM 0 0

/-- The `end` bound of a window as a time-of-day value (seconds fields 0). -/
def windowEndVal (w : Window) : Nat := timeVal w.endH w.endM 0 0

/-- bot.py:75-87 `in_posting_window`: true when the window list is empty,
otherwise true exactly when some window satisfies `start <= t <= end`,
where `t` is the time-of-day of the current local time. -/
def in_posting_window (windows : List Window) (t : Nat) : Bool :=
  if windows.isEmpty then true
  else windows.any fun w => decide (windowStartVal w ≤ t) && decide (t ≤ windowEndVal w)

/-- The comparison used at bot.py:219, `candidates.sort(key=lambda x: x[0])`:
ascending by source rank. -/
def candLE (a b : Candidate) : Bool := decide (a.rank ≤ b.rank)

/-- bot.py:219: Python's `list.sort` is a stable sort; embedded as a stable
merge sort by rank. -/
def sortCandidates (l : List Candidate) : List Candidate := l.mergeSort candLE

/-- bot.py:186-238, one pipeline cycle after the candidate list has been
built from the sources (the RSS fetches at bot.py:194-217 are external, so
the already-built list `cands` is a parameter): skip the cycle when outside
every posting window, skip it when the daily limit is already reached,
otherwise sort the candidates by rank and run the publish loop. -/
def runCycle (windows : List Window) (t : Nat) (maxP : Nat) (send : Candidate → Nat)
    (st : BotState) (cands : List Candidate) : BotState × List (Candidate × Nat) :=
  if !(in_posting_window windows t) then (st, [])
  else if maxP ≤ st.posts_today then (st, [])
  else publishLoop send maxP st (sortCandidates cands)

/-- Helper for Python's `str.split()` (split on whitespace runs, discarding
empty pieces): `acc` accumulates the current word in reverse. -/
def splitWsAux : List Char → List Char → List (List Char)
  | [], acc => if acc.isEmpty then [] else [acc.reverse]
  | c :: rest, acc =>
    if c.isWhitespace then
      if acc.isEmpty then splitWsAux rest [] else acc.reverse :: splitWsAux rest []
    else splitWsAux rest (c :: acc)

/-- Python `s.split()` with no separator argument: the whitespace-separated
words of `s` (leading/trailing whitespace ignored, so the `.strip()` at
bot.py:92 is absorbed). -/
def pySplit (s : List Char) : List (List Char) := splitWsAux s []

/-- bot.py:92, `" ".join((s or "").strip().split())`: the whitespace-normalized
form of `s`. -/
def normalize_ws (s : List Char) : List Char := List.intercalate [' '] (pySplit s)

/-- bot.py:90-95 `short_text`: normalize whitespace, return the result when it
fits in `maxLen` characters, otherwise its first `maxLen - 1` characters
followed by an ellipsis character. The Python slice `s[: max_len - 1]` is
`take (maxLen - 1)` for the `maxLen ≥ 1` values supplied by config. -/
def short_text (s : List Char) (maxLen : Nat) : List Char :=
  let t := normalize_ws s
  if t.length ≤ maxLen then t else t.take (maxLen - 1) ++ ['…']

/-- Python `str.lower()`, character by character. -/
def pyLower (s : List Char) : List Char := s.map Char.toLower

/-- Helper for Python's substring operator: `leadsWith n h` is true when `n`
is an initial segment of `h`. -/
def leadsWith : List Char → List Char → Bool
  | [], _ => true
  | _ :: _, [] => false
  | a :: as, b :: bs => decide (a = b) && leadsWith as bs

/-- Python's `needle in haystack` for strings: `needle` occurs as a contiguous
substring of `haystack`. -/
def occursIn (needle : List Char) : List Char → Bool
  | [] => needle.isEmpty
  | c :: rest => leadsWith needle (c :: rest) || occursIn needle rest

/-- The mathematical substring-occurrence relation `occursIn` computes:
`h` splits as `pre ++ n ++ post`. -/
def substringOf (n h : List Char) : Prop := ∃ pre post, h = pre ++ n ++ post

/-- bot.py:104-114 `passes_filters`: build the lowercased haystack
`title + " " + summary`; when the required list is nonempty, reject unless
some required keyword (lowercased) occurs in it; then reject when any blocked
keyword (lowercased) occurs in it; otherwise accept. -/
def passes_filters (required blocked : List (List Char)) (title summary : List Char) : Bool :=
  let text := pyLower (title ++ ' ' :: summary)
  if !required.isEmpty && !(required.any fun k => occursIn (pyLower k) text) then false
  else if blocked.any fun k => occursIn (pyLower k) text then false
  else true

/-- Outcome of one iteration of the `while True` loop of `run_bot`
(bot.py:180-243): either the loop goes on to its next iteration with the
given state after sleeping the given number of seconds, or an uncaught
exception escaped the loop and the bot thread died. -/
inductive IterResult where
  | next (st : BotState) (sleepSecs : Nat)
  | crash
  deriving DecidableEq

/-- bot.py:171-178 `reset_daily` including its `save_state` call: when the day
changed, the state is updated and then persisted, and persistence may raise
(`saveFails`); an exception is modelled as `Except.error`. -/
def reset_daily_io (saveFails : Bool) (d : String) (st : BotState) : Except Unit BotState :=
  if st.day ≠ d then
    if saveFails then Except.error ()
    else Except.ok { day := d, posts_today := 0, recent_hashes := takeLast 500 st.recent_hashes }
  else Except.ok st

/-- bot.py:180-243, the control structure of one iteration of the scheduler
loop: `reset_daily` runs first, outside the `try` block (bot.py:182), so an
exception raised there propagates and the loop terminates (`crash`); then
the `try` body (`body`, covering bot.py:184-240 — the whole pipeline plus its
final sleep) runs, and any exception it raises is caught by the `except`
clause at bot.py:241-243, which sleeps 60 seconds and lets the loop
continue. -/
def loopIteration (saveFails : Bool) (d : String)
    (body : BotState → Except Unit (BotState × Nat)) (st : BotState) : IterResult :=
  match reset_daily_io saveFails d st with
  | Except.error _ => IterResult.crash
  | Except.ok st1 =>
    match body st1 with
    | Except.ok (st2, sl) => IterResult.next st2 sl
    | Except.error _ => IterResult.next st1 60

theorem takeLast_length_le (n : Nat) (l : List α) : (takeLast n l).length ≤ n := by
  simp only [takeLast, List.length_drop]
  omega

theorem takeLast_suffix (n : Nat) (l : List α) : takeLast n l <:+ l :=
  List.drop_suffix _ _

theorem mem_takeLast_append_self (n : Nat) (hn : 1 ≤ n) (l : List α) (x : α) :
    x ∈ takeLast n (l ++ [x]) := by
  unfold takeLast
  have hk : (l ++ [x]).length - n ≤ l.length := by simp; omega
  rw [List.drop_append_of_le_length hk]
  exact List.mem_append_right _ (by simp)

theorem publishLoop_nil (send : Candidate → Nat) (maxP : Nat) (st : BotState) :
    publishLoop send maxP st [] = (st, []) := rfl

theorem publishLoop_cons (send : Candidate → Nat) (maxP : Nat) (st : BotState)
    (c : Candidate) (cs : List Candidate) :
    publishLoop send maxP st (c :: cs) =
      if maxP ≤ st.posts_today then (st, [])
      else if send c = 200 then (recordSuccess st c.h, [(c, send c)])
      else ((publishLoop send maxP st cs).1, (c, send c) :: (publishLoop send maxP st cs).2) :=
  rfl

theorem publishLoop_of_le (send : Candidate → Nat) (maxP : Nat) (st : BotState)
    (cs : List Candidate) (h : maxP ≤ st.posts_today) :
    publishLoop send maxP st cs = (st, []) := by
  cases cs with
  | nil => rfl
  | cons c cs => rw [publishLoop_cons, if_pos h]

theorem publishLoop_posts_le (send : Candidate → Nat) (maxP : Nat) (st : BotState)
    (cs : List Candidate) (h : st.posts_today ≤ maxP) :
    (publishLoop send maxP st cs).1.posts_today ≤ maxP := by
  induction cs with
  | nil => exact h
  | cons c cs ih =>
    rw [publishLoop_cons]
    split_ifs with h1 h2
    · exact h
    · show st.posts_today + 1 ≤ maxP
      omega
    · exact ih

theorem publishLoop_events_succ_last (send : Candidate → Nat) (maxP : Nat) (st : BotState)
    (cs : List Candidate) :
    ∀ l1 e l2, (publishLoop send maxP st cs).2 = l1 ++ e :: l2 → e.2 = 200 → l2 = [] := by
  induction cs with
  | nil =>
    intro l1 e l2 hEq _
    rw [publishLoop_nil] at hEq
    simp at hEq
  | cons c cs ih =>
    intro l1 e l2 hEq h200
    rw [publishLoop_cons] at hEq
    split_ifs at hEq with h1 h2
    · simp at hEq
    · have hEq2 : [(c, send c)] = l1 ++ e :: l2 := hEq
      cases l1 with
      | nil =>
        simp only [List.nil_append] at hEq2
        injection hEq2 with _ htail
        exact htail.symm
      | cons a l1 =>
        simp only [List.cons_append] at hEq2
        injection hEq2 with _ htail
        simp at htail
    · have hEq2 : (c, send c) :: (publishLoop send maxP st cs).2 = l1 ++ e :: l2 := hEq
      cases l1 with
      | nil =>
        simp only [List.nil_append] at hEq2
        injection hEq2 with hce htail
        subst hce
        exact absurd h200 h2
      | cons a l1 =>
        simp only [List.cons_append] at hEq2
        injection hEq2 with _ htail
        exact ih l1 e l2 htail h200

theorem publishLoop_countP_le_one (send : Candidate → Nat) (maxP : Nat) (st : BotState)
    (cs : List Candidate) :
    ((publishLoop send maxP st cs).2.countP fun e => decide (e.2 = 200)) ≤ 1 := by
  induction cs with
  | nil => simp [publishLoop_nil]
  | cons c cs ih =>
    rw [publishLoop_cons]
    split_ifs with h1 h2
    · simp
    · exact le_trans (List.countP_le_length _) (by simp)
    · simpa [List.countP_cons, h2] using ih

theorem leadsWith_iff : ∀ (n h : List Char), leadsWith n h = true ↔ ∃ t, h = n ++ t
  | [], h => by
    simp only [leadsWith, List.nil_append, true_iff]
    exact ⟨h, rfl⟩
  | a :: as, [] => by simp [leadsWith]
  | a :: as, b :: bs => by
    simp only [leadsWith, Bool.and_eq_true, decide_eq_true_eq]
    rw [leadsWith_iff as bs]
    constructor
    · rintro ⟨hab, t, ht⟩
      exact ⟨t, by rw [ht, ← hab]; rfl⟩
    · rintro ⟨t, ht⟩
      simp only [List.cons_append] at ht
      injection ht with h1 h2
      exact ⟨h1.symm, t, h2⟩

theorem occursIn_iff : ∀ (h n : List Char), occursIn n h = true ↔ substringOf n h
  | [], n => by
    simp only [occursIn, substringOf, List.isEmpty_iff]
    constructor
    · rintro rfl
      exact ⟨[], [], rfl⟩
    · rintro ⟨pre, post, hsplit⟩
      have h1 := List.append_eq_nil.mp hsplit.symm
      exact (List.append_eq_nil.mp h1.1).2
  | c :: rest, n => by
    simp only [occursIn, Bool.or_eq_true, substringOf]
    rw [leadsWith_iff, occursIn_iff rest n]
    simp only [substringOf]
    constructor
    · rintro (⟨t, ht⟩ | ⟨pre, post, hsplit⟩)
      · exact ⟨[], t, by simpa using ht⟩
      · exact ⟨c :: pre, post, by rw [hsplit]; rfl⟩
    · rintro ⟨pre, post, hsplit⟩
      cases pre with
      | nil => exact Or.inl ⟨post, by simpa using hsplit⟩
      | cons a pre =>
        simp only [List.cons_append] at hsplit
        injection hsplit with _ h2
        exact Or.inr ⟨pre, post, h2⟩

theorem candLE_trans (a b c : Candidate) :
    candLE a b = true → candLE b c = true → candLE a c = true := by
  simp only [candLE, decide_eq_true_eq]
  omega

theorem candLE_total (a b : Candidate) : (candLE a b || candLE b a) = true := by
  simp only [candLE, Bool.or_eq_true, decide_eq_true_eq]
  omega

theorem sortCandidates_sorted (l : List Candidate) :
    (sortCandidates l).Pairwise fun a b => a.rank ≤ b.rank := by
  have h := List.sorted_mergeSort candLE_trans candLE_total l
  exact h.imp fun hab => by simpa [candLE] using hab

theorem sortCandidates_filter (r : Nat) (l : List Candidate) :
    (sortCandidates l).filter (fun c => decide (c.rank = r))
      = l.filter fun c => decide (c.rank = r) := by
  induction l with
  | nil => simp [sortCandidates]
  | cons a l ih =>
    obtain ⟨l1, l2, h1, h2, h3⟩ := List.mergeSort_cons candLE_trans candLE_total a l
    simp only [sortCandidates] at ih ⊢
    rw [h1, List.filter_append]
    have hl : l.filter (fun c => decide (c.rank = r))
        = (l1.filter fun c => decide (c.rank = r)) ++ l2.filter fun c => decide (c.rank = r) := by
      rw [← ih, h2, List.filter_append]
    by_cases hr : a.rank = r
    · have hl1 : l1.filter (fun c => decide (c.rank = r)) = [] := by
        rw [List.filter_eq_nil_iff]
        intro b hb
        have hb2 := h3 b hb
        simp only [candLE, Bool.not_eq_true', decide_eq_false_iff_not] at hb2
        simp only [decide_eq_true_eq]
        omega
      have hra : (decide (a.rank = r)) = true := by simp [hr]
      simp [List.filter_cons, hra, hl, hl1]
    · have hra : (decide (a.rank = r)) = false := by simp [hr]
      simp [List.filter_cons, hra, hl]

/-- C1: for every pipeline cycle, under the precondition that
`posts_today ≤ max_posts_per_day` when the cycle starts, the counter at cycle
end never exceeds `max_posts_per_day`; and whenever the counter has reached
the maximum, the publish loop makes no send attempt (in particular a cycle
that starts at the maximum makes none). -/
theorem cycle_posts_le_max (windows : List Window) (t maxP : Nat) (send : Candidate → Nat)
    (st : BotState) (cands : List Candidate) (hstart : st.posts_today ≤ maxP) :
    (runCycle windows t maxP send st cands).1.posts_today ≤ maxP
    ∧ (maxP ≤ st.posts_today → (runCycle windows t maxP send st cands).2 = [])
    ∧ ∀ (st2 : BotState) (cs : List Candidate), maxP ≤ st2.posts_today →
        (publishLoop send maxP st2 cs).2 = [] := by
  refine ⟨?_, ?_, ?_⟩
  · unfold runCycle
    split_ifs with h1 h2
    · exact hstart
    · exact hstart
    · exact publishLoop_posts_le _ _ _ _ hstart
  · intro hmax
    unfold runCycle
    split_ifs <;> rfl
  · intro st2 cs hmax
    rw [publishLoop_of_le _ _ _ _ hmax]

theorem cycle_posts_le_max_witness :
    (runCycle [] 0 2 (fun _ => 404)
      { day := "2024-01-01", posts_today := 2, recent_hashes := [] } []).2 = [] :=
  (cycle_posts_le_max [] 0 2 (fun _ => 404)
    { day := "2024-01-01", posts_today := 2, recent_hashes := [] } [] (by decide)).2.1 (by decide)

/-- C2: in the publish loop, when the quota is not yet reached: if the send
for candidate `c` returned status 200 the attempt updates the state exactly by
incrementing `posts_today` and appending `c`'s fingerprint (then trimming to
the last 1500), and the fingerprint is a member of the new history; if the
send returned any other status, processing `c` leaves the state exactly as
the loop over the remaining candidates leaves it — the failed attempt itself
changes nothing in (day, posts_today, recent_hashes). -/
theorem publish_step_iff_success (send : Candidate → Nat) (maxP : Nat) (st : BotState)
    (c : Candidate) (cs : List Candidate) (hq : st.posts_today < maxP) :
    (send c = 200 →
      publishLoop send maxP st (c :: cs)
        = ({ day := st.day, posts_today := st.posts_today + 1,
             recent_hashes := takeLast 1500 (st.recent_hashes ++ [c.h]) }, [(c, send c)])
      ∧ c.h ∈ (publishLoop send maxP st (c :: cs)).1.recent_hashes)
    ∧ (send c ≠ 200 →
      publishLoop send maxP st (c :: cs)
        = ((publishLoop send maxP st cs).1, (c, send c) :: (publishLoop send maxP st cs).2)) := by
  have hnot : ¬ maxP ≤ st.posts_today := by omega
  constructor
  · intro h200
    have heq : publishLoop send maxP st (c :: cs) = (recordSuccess st c.h, [(c, send c)]) := by
      rw [publishLoop_cons, if_neg hnot, if_pos h200]
    constructor
    · rw [heq]
      simp only [recordSuccess]
    · have hfst : (publishLoop send maxP st (c :: cs)).1 = recordSuccess st c.h := by
        rw [heq]
      rw [hfst]
      simp only [recordSuccess]
      exact mem_takeLast_append_self 1500 (by omega) st.recent_hashes c.h
  · intro hne
    rw [publishLoop_cons, if_neg hnot, if_neg hne]

theorem publish_step_iff_success_witness :
    publishLoop (fun _ => 200) 2
      { day := "2024-01-01", posts_today := 0, recent_hashes := [] }
      [{ rank := 1, source_name := "a", title := "t", link := "l", h := "h1" }]
    = ({ day := "2024-01-01", posts_today := 1, recent_hashes := ["h1"] },
        [({ rank := 1, source_name := "a", title := "t", link := "l", h := "h1" }, 200)]) :=
  ((publish_step_iff_success (fun _ => 200) 2
      { day := "2024-01-01", posts_today := 0, recent_hashes := [] }
      { rank := 1, source_name := "a", title := "t", link := "l", h := "h1" } []
      (by decide)).1 rfl).1

/-- C3 counterexample: a failure raised during day-rollover state persistence
(the `save_state` call at bot.py:178, reached from the `reset_daily(now)` call
at bot.py:182 which runs before the `try` block) is not caught at the loop
boundary: the iteration crashes and the scheduler loop terminates, refuting
the claim that every failure inside an iteration — including one raised
during day-rollover or its state persistence — is caught and followed by a
sleep and the next iteration. -/
theorem rollover_error_crashes_loop :
    loopIteration true "2024-01-02" (fun s => Except.ok (s, 900))
      { day := "2024-01-01", posts_today := 0, recent_hashes := [] } = IterResult.crash := rfl

/-- C3 (amended): whenever the day-rollover step (including its persistence)
does not itself raise, every failure raised inside the `try` body of a loop
iteration — a source fetch error, a send error, or any unexpected exception
in the pipeline — is caught at the loop boundary, a 60-second sleep follows,
and the scheduler loop continues with the next iteration; an exception raised
by the rollover step itself runs outside the `try` block and terminates the
loop instead. -/
theorem try_body_errors_caught (saveFails : Bool) (d : String)
    (body : BotState → Except Unit (BotState × Nat)) (st st1 : BotState)
    (hroll : reset_daily_io saveFails d st = Except.ok st1) :
    (∀ e, body st1 = Except.error e → loopIteration saveFails d body st = IterResult.next st1 60)
    ∧ ∀ st2 sl, body st1 = Except.ok (st2, sl) →
        loopIteration saveFails d body st = IterResult.next st2 sl := by
  constructor
  · intro e he
    simp [loopIteration, hroll, he]
  · intro st2 sl hb
    simp [loopIteration, hroll, hb]

theorem try_body_errors_caught_witness :
    loopIteration false "2024-01-01" (fun _ => Except.error ())
      { day := "2024-01-01", posts_today := 0, recent_hashes := [] }
    = IterResult.next { day := "2024-01-01", posts_today := 0, recent_hashes := [] } 60 :=
  (try_body_errors_caught false "2024-01-01" (fun _ => Except.error ())
    { day := "2024-01-01", posts_today := 0, recent_hashes := [] }
    { day := "2024-01-01", posts_today := 0, recent_hashes := [] } rfl).1 () rfl

/-- C4: day-rollover is idempotent within a calendar day: when the computed
day string equals the stored one it changes nothing; when it differs it sets
the new day, resets `posts_today` to 0, and truncates `recent_hashes` to its
last 500 entries (hence to length at most 500); and applying it twice with
the same day string equals applying it once. -/
theorem reset_daily_spec (d : String) (st : BotState) :
    (st.day = d → reset_daily d st = st)
    ∧ (st.day ≠ d →
        (reset_daily d st).day = d
        ∧ (reset_daily d st).posts_today = 0
        ∧ (reset_daily d st).recent_hashes = takeLast 500 st.recent_hashes
        ∧ (reset_daily d st).recent_hashes.length ≤ 500)
    ∧ reset_daily d (reset_daily d st) = reset_daily d st := by
  have key : ∀ s2 : BotState, s2.day = d → reset_daily d s2 = s2 := by
    intro s2 hs2
    simp [reset_daily, hs2]
  refine ⟨key st, ?_, ?_⟩
  · intro h
    have he : reset_daily d st
        = { day := d, posts_today := 0, recent_hashes := takeLast 500 st.recent_hashes } := by
      unfold reset_daily
      rw [if_pos h]
    rw [he]
    refine ⟨by simp only [], by simp only [], by simp only [], ?_⟩
    simp only []
    exact takeLast_length_le _ _
  · by_cases h : st.day = d
    · rw [key st h]
      exact key st h
    · have hd : (reset_daily d st).day = d := by
        unfold reset_daily
        rw [if_pos h]
      exact key (reset_daily d st) hd

theorem reset_daily_spec_witness :
    (reset_daily "2024-01-02"
      { day := "2024-01-01", posts_today := 2, recent_hashes := ["a"] }).posts_today = 0 :=
  ((reset_daily_spec "2024-01-02"
    { day := "2024-01-01", posts_today := 2, recent_hashes := ["a"] }).2.1 (by decide)).2.1

/-- C5: recording a fingerprint appends it and trims the history to its last
1500 entries: when the history respected the cap before, it respects it
after; the just-recorded fingerprint is a member of the new history; the new
history is a suffix of the old history extended by the fingerprint, so what
eviction removes is an initial segment — the oldest entries (FIFO); day and
counter are untouched. -/
theorem record_spec (st : BotState) (fp : String)
    (hcap : st.recent_hashes.length ≤ 1500) :
    (record st fp).recent_hashes.length ≤ 1500
    ∧ fp ∈ (record st fp).recent_hashes
    ∧ (record st fp).recent_hashes <:+ st.recent_hashes ++ [fp]
    ∧ (record st fp).day = st.day
    ∧ (record st fp).posts_today = st.posts_today := by
  refine ⟨?_, ?_, ?_, by simp only [record], by simp only [record]⟩
  · simp only [record]
    exact takeLast_length_le _ _
  · simp only [record]
    exact mem_takeLast_append_self 1500 (by omega) st.recent_hashes fp
  · simp only [record]
    exact takeLast_suffix _ _

theorem record_spec_witness :
    "h2" ∈ (record
      { day := "2024-01-01", posts_today := 1, recent_hashes := ["h1"] } "h2").recent_hashes :=
  (record_spec
    { day := "2024-01-01", posts_today := 1, recent_hashes := ["h1"] } "h2" (by decide)).2.1

/-- C6: for `maxLen ≥ 1`, `short_text` always returns at most `maxLen`
characters; when the whitespace-normalized input fits within `maxLen` it is
returned exactly; otherwise the result is the first `maxLen - 1` characters
of the normalized form followed by the single ellipsis character, so it ends
in the ellipsis marker. -/
theorem short_text_spec (s : List Char) (maxLen : Nat) (hmax : 1 ≤ maxLen) :
    (short_text s maxLen).length ≤ maxLen
    ∧ ((normalize_ws s).length ≤ maxLen → short_text s maxLen = normalize_ws s)
    ∧ (maxLen < (normalize_ws s).length →
        short_text s maxLen = (normalize_ws s).take (maxLen - 1) ++ ['…']
        ∧ (short_text s maxLen).getLast? = some '…') := by
  by_cases h : (normalize_ws s).length ≤ maxLen
  · have he : short_text s maxLen = normalize_ws s := by
      simp only [short_text]
      rw [if_pos h]
    refine ⟨?_, fun _ => he, fun hc => absurd h (by omega)⟩
    rw [he]
    exact h
  · have he : short_text s maxLen = (normalize_ws s).take (maxLen - 1) ++ ['…'] := by
      simp only [short_text]
      rw [if_neg h]
    refine ⟨?_, fun hc => absurd hc h, fun _ => ⟨he, ?_⟩⟩
    · rw [he]
      simp only [List.length_append, List.length_take, List.length_cons, List.length_nil]
      omega
    · rw [he]
      exact List.getLast?_concat _

theorem short_text_spec_witness :
    (short_text "  hello   world  ".toList 8).length ≤ 8 :=
  (short_text_spec "  hello   world  ".toList 8 (by decide)).1

/-- C7: the keyword filter accepts exactly when (the required list is empty
or some required keyword occurs, case-insensitively, as a substring of
`title ++ " " ++ summary`) and no blocked keyword occurs case-insensitively
in that haystack; in particular a candidate matching both a required and a
blocked keyword is rejected, regardless of evaluation order. -/
theorem passes_filters_spec (required blocked : List (List Char)) (title summary : List Char) :
    (passes_filters required blocked title summary = true ↔
      ((required = []
          ∨ ∃ k ∈ required, substringOf (pyLower k) (pyLower (title ++ ' ' :: summary)))
        ∧ ∀ k ∈ blocked, ¬ substringOf (pyLower k) (pyLower (title ++ ' ' :: summary))))
    ∧ ∀ k1 ∈ required, ∀ k2 ∈ blocked,
        substringOf (pyLower k1) (pyLower (title ++ ' ' :: summary)) →
        substringOf (pyLower k2) (pyLower (title ++ ' ' :: summary)) →
        passes_filters required blocked title summary = false := by
  set text := pyLower (title ++ ' ' :: summary) with htext
  have hone : ∀ k : List Char, occursIn (pyLower k) text = true ↔ substringOf (pyLower k) text :=
    fun k => occursIn_iff text (pyLower k)
  have hiff : passes_filters required blocked title summary = true ↔
      ((required = [] ∨ ∃ k ∈ required, substringOf (pyLower k) text)
        ∧ ∀ k ∈ blocked, ¬ substringOf (pyLower k) text) := by
    simp only [passes_filters, ← htext]
    split_ifs with h1 h2
    · simp only [Bool.false_eq_true, false_iff]
      simp only [Bool.and_eq_true, Bool.not_eq_true'] at h1
      rintro ⟨hor, -⟩
      rcases hor with hnil | ⟨k, hk, hs⟩
      · rw [hnil] at h1
        simp at h1
      · have hA : (required.any fun k2 => occursIn (pyLower k2) text) = true :=
          List.any_eq_true.mpr ⟨k, hk, (hone k).mpr hs⟩
        rw [h1.2] at hA
        simp at hA
    · simp only [Bool.false_eq_true, false_iff]
      rintro ⟨-, hall⟩
      obtain ⟨k, hk, ho⟩ := List.any_eq_true.mp h2
      exact hall k hk ((hone k).mp ho)
    · constructor
      · rintro -
        constructor
        · by_cases hreq : required = []
          · exact Or.inl hreq
          · have hne : required.isEmpty = false := by
              cases hE : required.isEmpty
              · rfl
              · exact absurd (List.isEmpty_iff.mp hE) hreq
            have hA : (required.any fun k => occursIn (pyLower k) text) = true := by
              cases hA2 : (required.any fun k => occursIn (pyLower k) text)
              · exact absurd (by rw [hne, hA2]; rfl) h1
              · rfl
            obtain ⟨k, hk, ho⟩ := List.any_eq_true.mp hA
            exact Or.inr ⟨k, hk, (hone k).mp ho⟩
        · intro k hk hs
          exact h2 (List.any_eq_true.mpr ⟨k, hk, (hone k).mpr hs⟩)
      · rintro -
        rfl
  refine ⟨hiff, ?_⟩
  intro k1 hk1 k2 hk2 hs1 hs2
  cases hpf : passes_filters required blocked title summary with
  | false => rfl
  | true => exact absurd hs2 ((hiff.mp hpf).2 k2 hk2)

theorem passes_filters_spec_witness :
    passes_filters ["sconto".toList, "offerta".toList] ["scam".toList]
      "Grande offerta sul nuovo laptop".toList [] = true :=
  (passes_filters_spec ["sconto".toList, "offerta".toList] ["scam".toList]
      "Grande offerta sul nuovo laptop".toList []).1.mpr
    ⟨Or.inr ⟨"offerta".toList, by decide,
      (occursIn_iff (pyLower ("Grande offerta sul nuovo laptop".toList ++ ' ' :: []))
        (pyLower "offerta".toList)).mp (by decide)⟩,
     fun k hk hs => by
       simp only [List.mem_singleton] at hk
       subst hk
       exact absurd ((occursIn_iff _ _).mpr hs) (by decide)⟩

/-- C8: the posting-window gate returns true exactly when the window list is
empty or the time-of-day value lies in the inclusive interval
`[start, end]` of at least one window (time-of-day comparison only); stated
under the precondition that every window is non-wrapping (start ≤ end). -/
theorem in_posting_window_spec (windows : List Window) (t : Nat)
    (hw : ∀ w ∈ windows, windowStartVal w ≤ windowEndVal w) :
    in_posting_window windows t = true ↔
      windows = [] ∨ ∃ w ∈ windows, windowStartVal w ≤ t ∧ t ≤ windowEndVal w := by
  unfold in_posting_window
  by_cases hE : windows.isEmpty
  · rw [if_pos hE]
    simp [List.isEmpty_iff.mp hE]
  · rw [if_neg hE]
    rw [List.any_eq_true]
    constructor
    · rintro ⟨w, hwmem, hcond⟩
      rw [Bool.and_eq_true, decide_eq_true_eq, decide_eq_true_eq] at hcond
      exact Or.inr ⟨w, hwmem, hcond⟩
    · rintro (hnil | ⟨w, hwmem, hc1, hc2⟩)
      · exact absurd (by rw [hnil]; rfl) hE
      · refine ⟨w, hwmem, ?_⟩
        rw [Bool.and_eq_true, decide_eq_true_eq, decide_eq_true_eq]
        exact ⟨hc1, hc2⟩

theorem in_posting_window_spec_witness :
    in_posting_window [{ startH := 9, startM := 0, endH := 12, endM := 30 }]
      (timeVal 10 15 30 0) = true :=
  (in_posting_window_spec [{ startH := 9, startM := 0, endH := 12, endM := 30 }]
    (timeVal 10 15 30 0) (by decide)).mpr (by decide)

/-- C9: sorting the candidate list ascending by source rank is stable: in the
output, ranks are pairwise nondecreasing (so a candidate with strictly lower
rank precedes every candidate with higher rank), the candidates of any fixed
rank appear in exactly the relative order in which they were encountered, and
the output is a permutation of the input. -/
theorem sort_candidates_spec (l : List Candidate) (r : Nat) :
    (sortCandidates l).Pairwise (fun a b => a.rank ≤ b.rank)
    ∧ (sortCandidates l).filter (fun c => decide (c.rank = r))
        = l.filter (fun c => decide (c.rank = r))
    ∧ (sortCandidates l).Perm l :=
  ⟨sortCandidates_sorted l, sortCandidates_filter r l, List.mergeSort_perm l candLE⟩

theorem sort_candidates_spec_witness :
    (sortCandidates
      [{ rank := 2, source_name := "b", title := "t2", link := "l2", h := "h2" },
       { rank := 1, source_name := "a", title := "t1", link := "l1", h := "h1" }]).Perm
      [{ rank := 2, source_name := "b", title := "t2", link := "l2", h := "h2" },
       { rank := 1, source_name := "a", title := "t1", link := "l1", h := "h1" }] :=
  (sort_candidates_spec
    [{ rank := 2, source_name := "b", title := "t2", link := "l2", h := "h2" },
     { rank := 1, source_name := "a", title := "t1", link := "l1", h := "h1" }] 1).2.2

/-- C10: in any single pipeline cycle, at most one candidate is published
successfully: the cycle's attempt list contains at most one attempt with
status 200, any successful attempt is the last attempt of the cycle (the
loop stops as soon as a send returns 200), and after a non-success send the
loop moves on to the remaining ranked candidates with the state unchanged. -/
theorem one_publish_per_cycle (windows : List Window) (t maxP : Nat) (send : Candidate → Nat)
    (st : BotState) (cands : List Candidate) :
    ((runCycle windows t maxP send st cands).2.countP fun e => decide (e.2 = 200)) ≤ 1
    ∧ (∀ l1 e l2, (runCycle windows t maxP send st cands).2 = l1 ++ e :: l2 →
        e.2 = 200 → l2 = [])
    ∧ ∀ (st2 : BotState) (c : Candidate) (cs : List Candidate),
        st2.posts_today < maxP → send c ≠ 200 →
        publishLoop send maxP st2 (c :: cs)
          = ((publishLoop send maxP st2 cs).1, (c, send c) :: (publishLoop send maxP st2 cs).2) := by
  refine ⟨?_, ?_, ?_⟩
  · unfold runCycle
    split_ifs
    · simp
    · simp
    · exact publishLoop_countP_le_one _ _ _ _
  · unfold runCycle
    split_ifs
    · intro l1 e l2 hEq _
      simp at hEq
    · intro l1 e l2 hEq _
      simp at hEq
    · exact publishLoop_events_succ_last _ _ _ _
  · intro st2 c cs hlt hne
    rw [publishLoop_cons, if_neg (by omega), if_neg hne]

theorem one_publish_per_cycle_witness :
    ((runCycle [] 0 2 (fun _ => 200)
        { day := "2024-01-01", posts_today := 0, recent_hashes := [] }
        []).2.countP fun e => decide (e.2 = 200)) ≤ 1 :=
  (one_publish_per_cycle [] 0 2 (fun _ => 200)
    { day := "2024-01-01", posts_today := 0, recent_hashes := [] } []).1

end OfferteBot
